import Mathlib

/-!
A shallow embedding of the `itertools` Go package
(`src/itertools/itertools.go`).

Modelling conventions:

* A Go `iter.Seq[V]` is observed through the finite list of values it
  yields to a consumer; combinators that build one sequence from others
  are modelled as functions on lists, translated statement by statement
  from the Go loop bodies.
* Go `int` values are modelled as unbounded `Int` (the claims under
  study quantify mathematically and none hinges on 64-bit overflow).
  Go's `/` on `int` truncates toward zero, which is `Int.tdiv`; Go's
  `%` on non-negative operands agrees with `Nat.mod`.
* A Go `panic` at construction time is modelled by the constructor
  returning `Except.error` with the panic message, before any closure
  (modelled by a `*Closure` structure holding the captured variables)
  is produced.  Running a constructed closure is a separate, total
  function: this separation mirrors the construction-time /
  iteration-time split of the source.
-/

namespace GoItertools

/-- From `getRangeLen` (itertools.go:348-356): for `step > 0 && start < end`
it returns `1 + (end-start-1)/step`; for `step < 0 && start > end` it
returns `1 + (start-end-1)/(-step)`; otherwise `0` — with Go's
truncated division (`Int.tdiv`). -/
def getRangeLen (start endv step : Int) : Int :=
  if step > 0 ∧ start < endv then 1 + (endv - start - 1).tdiv step
  else if step < 0 ∧ start > endv then 1 + (start - endv - 1).tdiv (-step)
  else 0

/-- The loop body of the sequence returned by `Range`
(itertools.go:337-345): `for x := start; length > 0; x += step`,
yielding `x` and decrementing `length` each iteration.  The iteration
count is the `Nat` argument. -/
def rangeLoop (x step : Int) : Nat → List Int
  | 0 => []
  | n + 1 => x :: rangeLoop (x + step) step n

/-- The variables captured by the closure `Range` returns. -/
structure RangeClosure where
  start : Int
  endv : Int
  step : Int

/-- From `Range` (itertools.go:333-346): panics (here: `Except.error`)
when `step == 0`, before the closure is built; otherwise returns the
closure capturing `start`, `end`, `step`. -/
def Range (start endv step : Int) : Except String RangeClosure :=
  if step = 0 then .error "step for Range must be non-zero"
  else .ok ⟨start, endv, step⟩

/-- Iterating the closure returned by `Range`: the loop runs
`getRangeLen(start, end, step)` times (a non-positive length runs the
loop zero times, hence `Int.toNat`). -/
def rangeRun (c : RangeClosure) : List Int :=
  rangeLoop c.start c.step (getRangeLen c.start c.endv c.step).toNat

theorem rangeLoop_length (x step : Int) (n : Nat) :
    (rangeLoop x step n).length = n := by
  induction n generalizing x with
  | zero => rfl
  | succ n ih => simp [rangeLoop, ih]

theorem rangeLoop_eq_map (x step : Int) (n : Nat) :
    rangeLoop x step n = (List.range n).map (fun i : Nat => x + (i : Int) * step) := by
  induction n generalizing x with
  | zero => rfl
  | succ n ih =>
    rw [rangeLoop, ih, List.range_succ_eq_map, List.map_cons, List.map_map]
    refine congrArg₂ _ (by push_cast; ring) ?_
    apply List.map_congr_left
    intro i _
    simp only [Function.comp_apply]
    push_cast
    ring

/-- The variables captured by the closure `Slice` returns. -/
structure SliceClosure (V : Type) where
  seq : List V
  start : Int
  endv : Int
  step : Int

/-- From `Slice` (itertools.go:696-723): panics (here: `Except.error`)
when `step <= 0`, before the closure is built. -/
def Slice {V : Type} (seq : List V) (start endv step : Int) :
    Except String (SliceClosure V) :=
  if step ≤ 0 then .error "step for Slice must be a positive integer"
  else .ok ⟨seq, start, endv, step⟩

/-- From `Slice2` (itertools.go:735-767): identical to `Slice` except it
consumes an `iter.Seq2` (modelled as a list of pairs) and carries its
own panic message. -/
def Slice2 {K V : Type} (seq : List (K × V)) (start endv step : Int) :
    Except String (SliceClosure (K × V)) :=
  if step ≤ 0 then .error "step for Slice2 must be a positive integer"
  else .ok ⟨seq, start, endv, step⟩

/-- The drop phase of `Slice`'s closure (itertools.go:704-708):
`for range RangeUntil(start, 1) { if _, ok := next(); !ok { return } }`.
The `Nat` argument is the number of loop iterations (the length of
`RangeUntil(start, 1)`).  Returns the remaining pull handle (`none`
when the inner sequence exhausted, which makes the closure return) and
the number of elements consumed from the inner sequence. -/
def sliceDrop {V : Type} (xs : List V) : Nat → Option (List V) × Nat
  | 0 => (some xs, 0)
  | n + 1 =>
    match xs with
    | [] => (none, 0)
    | _ :: rest =>
      let r := sliceDrop rest n
      (r.1, r.2 + 1)

/-- The main loop of `Slice`'s closure (itertools.go:710-721):
`for i := start; i < end; i++` pulling one element per iteration and
yielding it when `(i-start) % step == 0`.  Here `k` is `i - start`
(a `Nat`, since the loop starts at `i = start`), and the last argument
is the number of remaining iterations, `end - start` clamped to zero.
Returns the yielded elements and the number of elements consumed. -/
def sliceLoop {V : Type} (xs : List V) (step k : Nat) : Nat → List V × Nat
  | 0 => ([], 0)
  | n + 1 =>
    match xs with
    | [] => ([], 0)
    | x :: rest =>
      let r := sliceLoop rest step (k + 1) n
      (if k % step = 0 then x :: r.1 else r.1, r.2 + 1)

/-- Iterating the closure returned by `Slice`: the drop phase runs
`len(RangeUntil(start, 1)) = getRangeLen(0, start, 1)` times, then the
main loop runs from `i = start` while `i < end`.  Returns the yielded
elements and the total number of elements consumed from the inner
sequence. -/
def sliceRun {V : Type} (c : SliceClosure V) : List V × Nat :=
  match sliceDrop c.seq (getRangeLen 0 c.start 1).toNat with
  | (none, cnt) => ([], cnt)
  | (some rest, cnt) =>
    let r := sliceLoop rest c.step.toNat 0 (c.endv - c.start).toNat
    (r.1, cnt + r.2)

/-- The values yielded by `Slice(seq, start, end, step)`. -/
def sliceRunYield {V : Type} (xs : List V) (start endv step : Int) : List V :=
  (sliceRun ⟨xs, start, endv, step⟩).1

/-- The number of elements `Slice(seq, start, end, step)` consumes from
`seq`. -/
def sliceRunConsumed {V : Type} (xs : List V) (start endv step : Int) : Nat :=
  (sliceRun ⟨xs, start, endv, step⟩).2

/-- Following the spec's words (not the source): "yields the elements of
`seq` at 0-based positions `start, start+step, start+2*step, ...` while
position `< end`" — the element at position `p` is selected when
`start ≤ p`, `p < end` and `p - start` is a multiple of `step`.  The
positions are taken as the claim quantifies them, over `Int`. -/
def sliceSpecSelection {V : Type} (xs : List V) (start endv step : Int) : List V :=
  (List.range xs.length).filterMap (fun p : Nat =>
    if start ≤ (p : Int) ∧ (p : Int) < endv ∧ ((p : Int) - start) % step = 0 then
      xs.get? p
    else none)

/-- From `ZipPair` (itertools.go:243-265): pull from `seq1`; if
exhausted, return; pull from `seq2`; if exhausted, return; otherwise
yield the pair and loop. -/
def ZipPair {V1 V2 : Type} : List V1 → List V2 → List (V1 × V2)
  | [], _ => []
  | _ :: _, [] => []
  | x :: xs, y :: ys => (x, y) :: ZipPair xs ys

/-- One round of `Zip`'s loop (itertools.go:230-237): for each pull
handle in order, pull; if exhausted (`!ok`) the whole closure returns
(`none` as second component), the values pulled earlier in this round
having already been yielded.  Each handle is modelled by the list of
values it has left. -/
def zipRound {V : Type} : List (List V) → List V × Option (List (List V))
  | [] => ([], some [])
  | h :: rest =>
    match h with
    | [] => ([], none)
    | x :: h' =>
      let r := zipRound rest
      (x :: r.1, r.2.map (h' :: ·))

/-- The unbounded `for { ... }` loop of `Zip` (itertools.go:222-238),
indexed by the number of outer-loop rounds executed so far (the `Nat`
fuel).  Returns the values yielded and whether the loop has returned
within that many rounds; `(vs, false)` means the loop is still running
after the given number of rounds. -/
def zipRunFuel {V : Type} (handles : List (List V)) : Nat → List V × Bool
  | 0 => ([], false)
  | n + 1 =>
    match zipRound handles with
    | (vs, none) => (vs, true)
    | (vs, some hs) =>
      let r := zipRunFuel hs n
      (vs ++ r.1, r.2)

/-- From `Zip` (itertools.go:221-239): one pull handle per input
sequence, then the round loop. -/
def Zip {V : Type} (seqs : List (List V)) : Nat → List V × Bool :=
  zipRunFuel seqs

/-- From `Zip2` (itertools.go:268-286): textually identical to `Zip`
with `iter.Pull2`/`next() (K, V, bool)` in place of `iter.Pull`; a
pulled key/value pair is modelled as a pair, so the loop is the same
function at `V := K × V`. -/
def Zip2 {K V : Type} (seqs : List (List (K × V))) : Nat → List (K × V) × Bool :=
  zipRunFuel seqs

/-- One round of `ZipLongest`'s loop (itertools.go:302-316): a `nil`
handle (`none`) contributes `fillValue`; a live handle is pulled — on
exhaustion it is set to `nil` and contributes `fillValue`, otherwise it
contributes its value.  Returns this round's `results` and the updated
handles. -/
def zipLongestRound {V : Type} (fillValue : V) :
    List (Option (List V)) → List V × List (Option (List V))
  | [] => ([], [])
  | h :: rest =>
    let r := zipLongestRound fillValue rest
    match h with
    | none => (fillValue :: r.1, none :: r.2)
    | some [] => (fillValue :: r.1, none :: r.2)
    | some (x :: l) => (x :: r.1, some l :: r.2)

/-- Termination measure for `ZipLongest`'s loop: each live handle
counts for its remaining length plus one. -/
def zlWeight {V : Type} : List (Option (List V)) → Nat
  | [] => 0
  | none :: rest => zlWeight rest
  | some l :: rest => l.length + 1 + zlWeight rest

theorem zlWeight_round_le {V : Type} (fillValue : V) :
    ∀ hs : List (Option (List V)),
      zlWeight (zipLongestRound fillValue hs).2 ≤ zlWeight hs := by
  intro hs
  induction hs with
  | nil => simp [zipLongestRound, zlWeight]
  | cons h rest ih =>
    match h with
    | none => simpa [zipLongestRound, zlWeight] using ih
    | some [] => simp [zipLongestRound, zlWeight]; omega
    | some (x :: l) =>
      have hle := ih
      simp only [zipLongestRound, zlWeight, List.length_cons]
      omega

theorem zlWeight_round_lt {V : Type} (fillValue : V) :
    ∀ hs : List (Option (List V)),
      ¬ (zipLongestRound fillValue hs).2.all Option.isNone →
      zlWeight (zipLongestRound fillValue hs).2 < zlWeight hs := by
  intro hs
  induction hs with
  | nil => intro h; simp [zipLongestRound] at h
  | cons h rest ih =>
    match h with
    | none =>
      intro hlive
      simp only [zipLongestRound, List.all_cons, Option.isNone_none,
        Bool.true_and] at hlive
      simpa [zipLongestRound, zlWeight] using ih hlive
    | some [] =>
      intro hlive
      simp only [zipLongestRound, List.all_cons, Option.isNone_none,
        Bool.true_and] at hlive
      have := ih hlive
      simp only [zipLongestRound, zlWeight]
      omega
    | some (x :: l) =>
      intro _
      have := zlWeight_round_le fillValue rest
      simp only [zipLongestRound, zlWeight, List.length_cons]
      omega

/-- The loop of `ZipLongest` (itertools.go:300-325): run one round; if
`liveCount` dropped to zero (all handles `nil`) return without
yielding; otherwise yield this round's `results` and loop. -/
def zipLongestGo {V : Type} (fillValue : V) (hs : List (Option (List V))) :
    List V :=
  let r := zipLongestRound fillValue hs
  if h : r.2.all Option.isNone then []
  else r.1 ++ zipLongestGo fillValue r.2
termination_by zlWeight hs
decreasing_by exact zlWeight_round_lt fillValue hs h

/-- From `ZipLongest` (itertools.go:290-327): every input sequence
starts as a live pull handle. -/
def ZipLongest {V : Type} (fillValue : V) (seqs : List (List V)) : List V :=
  zipLongestGo fillValue (seqs.map some)

/-- The loop of the closure returned by `Accumulate`
(itertools.go:453-460): `current = function(current, v); yield current`.
Returns the yielded values and the final value of the captured
`current` variable. -/
def accumulateRun {V1 V2 : Type} (function : V2 → V1 → V2) (current : V2) :
    List V1 → List V2 × V2
  | [] => ([], current)
  | v :: rest =>
    let c := function current v
    let r := accumulateRun function c rest
    (c :: r.1, r.2)

/-- From `Accumulate` (itertools.go:447-461): `current := initial` is
declared OUTSIDE the returned closure, so `current` is shared by every
iteration of the returned sequence.  Iterating the sequence twice
therefore runs the loop the second time starting from the `current`
left by the first run, not from `initial`.  Returns the value lists
yielded by the first and by the second full iteration. -/
def accumulateTwice {V1 V2 : Type} (seq : List V1)
    (function : V2 → V1 → V2) (initial : V2) : List V2 × List V2 :=
  let r1 := accumulateRun function initial seq
  let r2 := accumulateRun function r1.2 seq
  (r1.1, r2.1)

/-- Resolution of the race that `IterCtx` (itertools.go:618-652) sets up
on its cancellation exit path.  When `ctx.Done()` wins the `select`, the
consumer returns and its deferred function calls `pullMutex.Lock()`
while the goroutine spawned for the current round still has to run
`pullMutex.Lock(); v, ok = next(); res <- v`.  Exactly one of the two
acquires `pullMutex` first:

* `workerFirst`: the goroutine locks first, calls `next()`, and then
  blocks forever in `res <- v` — `res` is unbuffered and the consumer
  has left the `select`, so no receiver ever arrives.  The goroutine
  never reaches its deferred `Unlock`, so the consumer's deferred
  `pullMutex.Lock()` blocks forever: the outer iteration never returns
  and `stop` is never called.

* `mainFirst`: the deferred function locks first, calls `stop()` and
  unlocks; the consumer finishes.  The goroutine then locks, calls
  `next()` — after `stop` (per `iter.Pull`, that call returns
  `zero, false`) — and blocks forever in `res <- v`: the goroutine
  leaks, holding `pullMutex`. -/
inductive LockSched where
  | workerFirst : LockSched
  | mainFirst : LockSched

/-- Observable outcome of one execution of the sequence returned by
`IterCtx` (or `IterCtx2`, the same code at pair type). -/
structure CtxOutcome (V : Type) where
  /-- values handed to the consumer, in order -/
  delivered : List V
  /-- number of completed calls to the `stop` returned by `iter.Pull` -/
  stopCalls : Nat
  /-- number of calls to `next` made after `stop` has returned -/
  nextCallsAfterStop : Nat
  /-- whether the consumer's `for range` loop ever finishes; `false`
  means the deferred `pullMutex.Lock()` blocks forever (deadlock) -/
  mainReturned : Bool
  /-- whether a spawned goroutine remains blocked forever on
  `res <- v` (a leak; in both schedules it also still holds
  `pullMutex`) -/
  workerLeaked : Bool

/-- The cancellation exit path of `IterCtx`'s loop, reached when
`ctx.Done()` wins the `select` after `delivered` values: the outcome
under each resolution of the `pullMutex` race (see `LockSched`). -/
def iterCtxCancelStep {V : Type} (delivered : List V) :
    LockSched → CtxOutcome V
  | .workerFirst =>
    { delivered := delivered, stopCalls := 0, nextCallsAfterStop := 0,
      mainReturned := false, workerLeaked := true }
  | .mainFirst =>
    { delivered := delivered, stopCalls := 1, nextCallsAfterStop := 1,
      mainReturned := true, workerLeaked := true }

/-- The loop of `IterCtx`'s closure (itertools.go:632-650) for a
consumer that accepts every value, with the context cancelled once the
`Nat` argument of remaining rounds reaches zero (i.e. after the first
`cancelAfter` values have been delivered).  Before cancellation each
round is serial: the goroutine locks, pulls, sends (the consumer's
`select` receives), unlocks; on exhaustion (`!ok`) the consumer
returns and its deferred function locks (waiting for the goroutine's
deferred unlock), calls `stop` once, and unlocks — no goroutine is
left behind.  On cancellation the race of `iterCtxCancelStep` decides
the outcome. -/
def iterCtxLoop {V : Type} (sched : LockSched) :
    List V → List V → Nat → CtxOutcome V
  | _, acc, 0 => iterCtxCancelStep acc.reverse sched
  | xs, acc, n + 1 =>
    match xs with
    | [] =>
      { delivered := acc.reverse, stopCalls := 1, nextCallsAfterStop := 0,
        mainReturned := true, workerLeaked := false }
    | x :: rest => iterCtxLoop sched rest (x :: acc) n

/-- From `IterCtx` (itertools.go:618-652): iterate the bridge over the
inner sequence `xs` with a consumer that accepts every value and a
context that is cancelled after `cancelAfter` delivered values, under
race resolution `sched`.  `IterCtx2` (itertools.go:655-690) is the
same code with `iter.Pull2` and a `seq2Store[K, V]` channel payload:
it is this model at `V := K × V`. -/
def iterCtxRun {V : Type} (xs : List V) (cancelAfter : Nat)
    (sched : LockSched) : CtxOutcome V :=
  iterCtxLoop sched xs [] cancelAfter

/-- Whether a constructor call modelled as `Except` fails with a Go
panic of the `InvalidArgument` kind. -/
def isInvalidArgument {α : Type} : Except String α → Bool
  | .error _ => true
  | .ok _ => false

theorem getRangeLen_zero_one (s : Int) : (getRangeLen 0 s 1).toNat = s.toNat := by
  unfold getRangeLen
  split_ifs with h1 h2
  · rw [Int.tdiv_one]
    omega
  · omega
  · omega

theorem sliceDrop_eq {V : Type} (xs : List V) (n : Nat) :
    sliceDrop xs n =
      if xs.length < n then (none, xs.length) else (some (xs.drop n), n) := by
  induction n generalizing xs with
  | zero => simp [sliceDrop]
  | succ n ih =>
    match xs with
    | [] => simp [sliceDrop]
    | x :: rest =>
      rw [sliceDrop, ih]
      by_cases h : rest.length < n
      · simp [h, List.length_cons, Nat.succ_lt_succ h]
      · have : ¬ (x :: rest).length < n + 1 := by simp [List.length_cons]; omega
        simp [h, this]

theorem sliceLoop_consumed {V : Type} (xs : List V) (st k n : Nat) :
    (sliceLoop xs st k n).2 = min n xs.length := by
  induction n generalizing xs k with
  | zero => simp [sliceLoop]
  | succ n ih =>
    match xs with
    | [] => simp [sliceLoop]
    | x :: rest =>
      simp only [sliceLoop, ih, List.length_cons]
      omega

theorem sliceLoop_yield {V : Type} (xs : List V) (st k n : Nat) :
    (sliceLoop xs st k n).1 =
      (List.range (min n xs.length)).filterMap
        (fun j => if (k + j) % st = 0 then xs.get? j else none) := by
  induction xs generalizing k n with
  | nil => cases n <;> simp [sliceLoop]
  | cons x rest ih =>
    match n with
    | 0 => simp [sliceLoop]
    | n + 1 =>
      have hmin : min (n + 1) (x :: rest).length = min n rest.length + 1 := by
        simp [List.length_cons]; omega
      have hfun :
          ((fun j => if (k + j) % st = 0 then (x :: rest).get? j else none) ∘ Nat.succ)
            = (fun j => if ((k + 1) + j) % st = 0 then rest.get? j else none) := by
        funext j
        have hadd : k + Nat.succ j = (k + 1) + j := by omega
        simp only [Function.comp_apply, hadd, List.get?_cons_succ]
      rw [sliceLoop, ih, hmin, List.range_succ_eq_map, List.filterMap_cons,
        List.filterMap_map, hfun]
      by_cases hk : k % st = 0
      · simp [hk]
      · simp [hk]

theorem filterMap_range_trunc {α : Type} (f : Nat → Option α) (t : Nat) :
    ∀ m : Nat,
      (List.range m).filterMap (fun j => if j < t then f j else none)
        = (List.range (min t m)).filterMap f := by
  intro m
  induction m with
  | zero => simp
  | succ m ih =>
    by_cases hm : m < t
    · have h1 : min t (m + 1) = m + 1 := by omega
      have h2 : min t m = m := by omega
      rw [List.range_succ, List.filterMap_append, ih, h1, h2, List.range_succ,
        List.filterMap_append]
      cases hfm : f m <;> simp [List.filterMap_cons, hm, hfm]
    · have h1 : min t (m + 1) = min t m := by omega
      rw [List.range_succ, List.filterMap_append, ih, h1]
      simp [hm]

theorem sliceRunYield_spec {V : Type} (xs : List V) (s e st : Int)
    (hs : 0 ≤ s) (hst : 0 < st) :
    sliceRunYield xs s e st = sliceSpecSelection xs s e st := by
  have hsd : ((s.toNat : Int)) = s := Int.toNat_of_nonneg hs
  have hstd : ((st.toNat : Int)) = st := Int.toNat_of_nonneg hst.le
  by_cases hlen : xs.length < s.toNat
  · have hdrop : sliceDrop xs (getRangeLen 0 s 1).toNat = (none, xs.length) := by
      rw [getRangeLen_zero_one, sliceDrop_eq, if_pos hlen]
    simp only [sliceRunYield, sliceRun, hdrop, sliceSpecSelection]
    symm
    rw [List.filterMap_eq_nil]
    intro p hp
    rw [List.mem_range] at hp
    apply if_neg
    rintro ⟨h1, -, -⟩
    omega
  · have hdrop : sliceDrop xs (getRangeLen 0 s 1).toNat
        = (some (xs.drop s.toNat), s.toNat) := by
      rw [getRangeLen_zero_one, sliceDrop_eq, if_neg hlen]
    simp only [sliceRunYield, sliceRun, hdrop, sliceSpecSelection]
    rw [sliceLoop_yield]
    have hsplit : xs.length = s.toNat + (xs.length - s.toNat) := by omega
    rw [hsplit, List.range_add, List.filterMap_append, List.filterMap_map]
    have hfirst :
        (List.range s.toNat).filterMap (fun p : Nat =>
          if s ≤ (p : Int) ∧ (p : Int) < e ∧ ((p : Int) - s) % st = 0 then
            xs.get? p
          else none) = [] := by
      rw [List.filterMap_eq_nil]
      intro p hp
      rw [List.mem_range] at hp
      apply if_neg
      rintro ⟨h1, -, -⟩
      omega
    rw [hfirst, List.nil_append]
    have hfun :
        ((fun p : Nat =>
            if s ≤ (p : Int) ∧ (p : Int) < e ∧ ((p : Int) - s) % st = 0 then
              xs.get? p
            else none) ∘ (s.toNat + ·))
          = (fun j : Nat => if j < (e - s).toNat then
              (if (0 + j) % st.toNat = 0 then (xs.drop s.toNat).get? j else none)
            else none) := by
      funext j
      simp only [Function.comp_apply]
      have hmod : ((s.toNat + j : Nat) : Int) - s = (j : Int) := by
        push_cast
        omega
      by_cases hj : j < (e - s).toNat
      · have hcond1 : s ≤ ((s.toNat + j : Nat) : Int) := by push_cast; omega
        have hcond2 : ((s.toNat + j : Nat) : Int) < e := by push_cast; omega
        by_cases hm : (0 + j) % st.toNat = 0
        · have hmz : ((j : Int) - 0) % st = 0 := by
            rw [← hstd, Int.sub_zero, ← Int.natCast_mod]
            simp only [Nat.zero_add] at hm
            rw [hm]
            rfl
          rw [if_pos ⟨hcond1, hcond2, by rw [hmod]; simpa using hmz⟩,
            if_pos hj, if_pos hm, List.get?_drop]
        · have hmz : ¬ ((j : Int) % st = 0) := by
            rw [← hstd, ← Int.natCast_mod]
            simp only [Nat.zero_add] at hm
            exact_mod_cast hm
          rw [if_neg (by rintro ⟨-, -, hc⟩; rw [hmod] at hc; exact hmz hc),
            if_pos hj, if_neg hm]
      · rw [if_neg (by rintro ⟨-, hc, -⟩; push_cast at hc; omega), if_neg hj]
    rw [hfun, filterMap_range_trunc]
    have : min (e - s).toNat (xs.length - s.toNat)
        = min (e - s).toNat (xs.drop s.toNat).length := by
      rw [List.length_drop]
    rw [this]

theorem sliceRunConsumed_spec {V : Type} (xs : List V) (s e st : Int)
    (hs : 0 ≤ s) :
    sliceRunConsumed xs s e st = min xs.length (max s.toNat e.toNat) := by
  by_cases hlen : xs.length < s.toNat
  · have hdrop : sliceDrop xs (getRangeLen 0 s 1).toNat = (none, xs.length) := by
      rw [getRangeLen_zero_one, sliceDrop_eq, if_pos hlen]
    simp only [sliceRunConsumed, sliceRun, hdrop]
    omega
  · have hdrop : sliceDrop xs (getRangeLen 0 s 1).toNat
        = (some (xs.drop s.toNat), s.toNat) := by
      rw [getRangeLen_zero_one, sliceDrop_eq, if_neg hlen]
    simp only [sliceRunConsumed, sliceRun, hdrop, sliceLoop_consumed,
      List.length_drop]
    omega

theorem getRangeLen_pos_facts (s e st : Int) (hst : 0 < st) :
    (∀ i : Nat, i < (getRangeLen s e st).toNat → s + i * st < e)
      ∧ e ≤ s + ((getRangeLen s e st).toNat : Int) * st := by
  by_cases hse : s < e
  · have hnn : 0 ≤ e - s - 1 := by omega
    have hde : (e - s - 1).tdiv st = (e - s - 1) / st :=
      Int.tdiv_eq_ediv hnn hst.le
    have h1 : (e - s - 1) / st * st ≤ e - s - 1 :=
      Int.ediv_mul_le _ hst.ne'
    have h2 : e - s - 1 < ((e - s - 1) / st + 1) * st :=
      Int.lt_ediv_add_one_mul_self _ hst
    have hdnn : 0 ≤ (e - s - 1) / st := Int.ediv_nonneg hnn hst.le
    have hL : getRangeLen s e st = 1 + (e - s - 1) / st := by
      unfold getRangeLen
      rw [if_pos ⟨hst, hse⟩, hde]
    have hLnat : ((getRangeLen s e st).toNat : Int) = 1 + (e - s - 1) / st := by
      rw [hL, Int.toNat_of_nonneg (by omega)]
    constructor
    · intro i hi
      have hile : (i : Int) ≤ (e - s - 1) / st := by omega
      have hmul : (i : Int) * st ≤ (e - s - 1) / st * st :=
        mul_le_mul_of_nonneg_right hile hst.le
      omega
    · rw [hLnat]
      have hring : (1 + (e - s - 1) / st) * st = ((e - s - 1) / st + 1) * st := by
        ring
      omega
  · have hL : getRangeLen s e st = 0 := by
      unfold getRangeLen
      split_ifs with h1 h2
      · omega
      · omega
      · rfl
    constructor
    · intro i hi
      rw [hL] at hi
      simp at hi
    · rw [hL]
      simp
      omega

theorem getRangeLen_neg_symm (s e st : Int) :
    getRangeLen s e st = getRangeLen (-s) (-e) (-st) := by
  unfold getRangeLen
  have harg1 : -e - -s - 1 = s - e - 1 := by ring
  have harg2 : -s - -e - 1 = e - s - 1 := by ring
  split_ifs with h1 h2 h3 h4 h5 h6 <;>
    (try simp only [neg_neg, harg1, harg2]) <;>
    first | rfl | omega

theorem fdiv_neg_neg_eq_tdiv (a b : Int) (ha : 0 ≤ a) (hb : 0 < b) :
    (-a).fdiv (-b) = a.tdiv b := by
  obtain ⟨n, rfl⟩ : ∃ n : Nat, a = (n : Int) :=
    ⟨a.toNat, (Int.toNat_of_nonneg ha).symm⟩
  obtain ⟨m, rfl⟩ : ∃ m : Nat, b = ((m + 1 : Nat) : Int) := by
    refine ⟨b.toNat - 1, ?_⟩
    have := Int.toNat_of_nonneg hb.le
    omega
  cases n with
  | zero => simp [Int.fdiv]
  | succ j =>
    show Int.fdiv (-((j + 1 : Nat) : Int)) (-((m + 1 : Nat) : Int))
      = ((j + 1 : Nat) : Int).tdiv ((m + 1 : Nat) : Int)
    rfl

theorem getRangeLen_toNat_formula (s e st : Int) (hst : st ≠ 0) :
    ((getRangeLen s e st).toNat : Int)
      = if (0 < st ∧ s < e) ∨ (st < 0 ∧ e < s) then
          max 0 (1 + (e - s - st.sign).fdiv st)
        else 0 := by
  rcases hst.lt_or_lt with hneg | hpos
  · by_cases hes : e < s
    · rw [if_pos (Or.inr ⟨hneg, hes⟩)]
      have hsign : st.sign = -1 := Int.sign_eq_neg_one_of_neg hneg
      have ha : (0 : Int) ≤ s - e - 1 := by omega
      have hfd : (e - s - st.sign).fdiv st = (s - e - 1).tdiv (-st) := by
        rw [hsign]
        calc (e - s - (-1)).fdiv st
            = (-(s - e - 1)).fdiv (-(-st)) := by
              rw [show e - s - (-1) = -(s - e - 1) from by ring, neg_neg]
          _ = (s - e - 1).tdiv (-st) :=
              fdiv_neg_neg_eq_tdiv _ _ ha (by omega)
      have hL : getRangeLen s e st = 1 + (s - e - 1).tdiv (-st) := by
        unfold getRangeLen
        rw [if_neg (by omega), if_pos ⟨hneg, hes⟩]
      have hd0 : 0 ≤ (s - e - 1).tdiv (-st) := by
        rw [Int.tdiv_eq_ediv ha (by omega)]
        exact Int.ediv_nonneg ha (by omega)
      rw [hfd, hL, Int.toNat_of_nonneg (by omega)]
      omega
    · rw [if_neg (by omega)]
      have hL : getRangeLen s e st = 0 := by
        unfold getRangeLen
        rw [if_neg (by omega), if_neg (by omega)]
      rw [hL]
      rfl
  · by_cases hse : s < e
    · rw [if_pos (Or.inl ⟨hpos, hse⟩)]
      have hsign : st.sign = 1 := Int.sign_eq_one_of_pos hpos
      have ha : (0 : Int) ≤ e - s - 1 := by omega
      have hfd : (e - s - st.sign).fdiv st = (e - s - 1).tdiv st := by
        rw [hsign, Int.fdiv_eq_ediv _ hpos.le, ← Int.tdiv_eq_ediv ha hpos.le]
      have hL : getRangeLen s e st = 1 + (e - s - 1).tdiv st := by
        unfold getRangeLen
        rw [if_pos ⟨hpos, hse⟩]
      have hd0 : 0 ≤ (e - s - 1).tdiv st := by
        rw [Int.tdiv_eq_ediv ha hpos.le]
        exact Int.ediv_nonneg ha hpos.le
      rw [hfd, hL, Int.toNat_of_nonneg (by omega)]
      omega
    · rw [if_neg (by omega)]
      have hL : getRangeLen s e st = 0 := by
        unfold getRangeLen
        rw [if_neg (by omega), if_neg (by omega)]
      rw [hL]
      rfl

theorem flatMap_map_comp {α β γ : Type} (g : α → β) (f : β → List γ)
    (l : List α) : (l.map g).flatMap f = l.flatMap (f ∘ g) := by
  induction l with
  | nil => rfl
  | cons a l ih =>
    simp only [List.map_cons, List.flatMap_cons, ih]
    rfl

/-- Following the spec's words: the sequence of "rounds" of
`zipLongest` over two sequences, one element per input sequence per
round, the missing element replaced by the fill value.  Used as the
right-hand side of the round characterisation. -/
def zipLongestPairRec {V : Type} (fillValue : V) : List V → List V → List V
  | [], [] => []
  | [], b :: bs => fillValue :: b :: zipLongestPairRec fillValue [] bs
  | a :: as, [] => a :: fillValue :: zipLongestPairRec fillValue as []
  | a :: as, b :: bs => a :: b :: zipLongestPairRec fillValue as bs

theorem zipLongestGo_some_none {V : Type} (fillValue : V) :
    ∀ l : List V,
      zipLongestGo fillValue [some l, none] = zipLongestPairRec fillValue l [] := by
  intro l
  induction l with
  | nil =>
    rw [zipLongestGo]
    simp [zipLongestRound, zipLongestPairRec]
  | cons x l ih =>
    rw [zipLongestGo]
    simp only [zipLongestRound, List.all_cons, Option.isNone_some,
      Bool.false_and, Bool.and_false, dite_false, Option.isNone_none]
    simp only [zipLongestPairRec, ih]
    rfl

theorem zipLongestGo_none_some {V : Type} (fillValue : V) :
    ∀ l : List V,
      zipLongestGo fillValue [none, some l] = zipLongestPairRec fillValue [] l := by
  intro l
  induction l with
  | nil =>
    rw [zipLongestGo]
    simp [zipLongestRound, zipLongestPairRec]
  | cons x l ih =>
    rw [zipLongestGo]
    simp only [zipLongestRound, List.all_cons, Option.isNone_some,
      Bool.false_and, Bool.and_false, dite_false, Option.isNone_none]
    simp only [zipLongestPairRec, ih]
    rfl

theorem zipLongestGo_some_some {V : Type} (fillValue : V) :
    ∀ as bs : List V,
      zipLongestGo fillValue [some as, some bs]
        = zipLongestPairRec fillValue as bs := by
  intro as
  induction as with
  | nil =>
    intro bs
    match bs with
    | [] =>
      rw [zipLongestGo]
      simp [zipLongestRound, zipLongestPairRec]
    | b :: bs =>
      rw [zipLongestGo]
      simp only [zipLongestRound, List.all_cons, Option.isNone_some,
        Bool.false_and, Bool.and_false, dite_false, Option.isNone_none]
      simp only [zipLongestPairRec, zipLongestGo_none_some]
      rfl
  | cons a as ih =>
    intro bs
    match bs with
    | [] =>
      rw [zipLongestGo]
      simp only [zipLongestRound, List.all_cons, Option.isNone_some,
        Bool.false_and, Bool.and_false, dite_false, Option.isNone_none]
      simp only [zipLongestPairRec, zipLongestGo_some_none]
      rfl
    | b :: bs =>
      rw [zipLongestGo]
      simp only [zipLongestRound, List.all_cons, Option.isNone_some,
        Bool.false_and, Bool.and_false, dite_false, Option.isNone_none]
      simp only [zipLongestPairRec, ih]
      rfl

theorem zipLongestPairRec_eq_range {V : Type} (fillValue : V) :
    ∀ as bs : List V,
      zipLongestPairRec fillValue as bs
        = (List.range (max as.length bs.length)).flatMap
            (fun i => [as.getD i fillValue, bs.getD i fillValue]) := by
  intro as
  induction as with
  | nil =>
    intro bs
    induction bs with
    | nil => simp [zipLongestPairRec]
    | cons b bs ihb =>
      rw [zipLongestPairRec, ihb]
      simp only [List.length_nil, Nat.max_eq_right (Nat.zero_le _),
        List.length_cons]
      rw [List.range_succ_eq_map, List.flatMap_cons, flatMap_map_comp]
      rfl
  | cons a as ih =>
    intro bs
    match bs with
    | [] =>
      rw [zipLongestPairRec, ih []]
      simp only [List.length_cons, List.length_nil,
        Nat.max_eq_left (Nat.zero_le _)]
      rw [List.range_succ_eq_map, List.flatMap_cons, flatMap_map_comp]
      rfl
    | b :: bs =>
      rw [zipLongestPairRec, ih bs]
      simp only [List.length_cons, Nat.add_max_add_right]
      rw [List.range_succ_eq_map, List.flatMap_cons, flatMap_map_comp]
      rfl

theorem sliceLoop_step_one {V : Type} :
    ∀ (xs : List V) (k n : Nat), (sliceLoop xs 1 k n).1 = xs.take n := by
  intro xs
  induction xs with
  | nil => intro k n; cases n <;> simp [sliceLoop]
  | cons x rest ih =>
    intro k n
    cases n with
    | zero => simp [sliceLoop]
    | succ n => simp [sliceLoop, ih, Nat.mod_one, List.take_succ_cons]

theorem sliceRunYield_zero_one {V : Type} (xs : List V) (e : Int) :
    sliceRunYield xs 0 e 1 = xs.take e.toNat := by
  have hdrop : sliceDrop xs (getRangeLen 0 (0 : Int) 1).toNat = (some xs, 0) := by
    rw [getRangeLen_zero_one]
    norm_num [sliceDrop]
  simp only [sliceRunYield, sliceRun, hdrop]
  norm_num [sliceLoop_step_one]

/-- C1: the claim says `IterCtx`/`IterCtx2` call the inner handle's
stop function exactly once on every exit path and never call next after
stop.  The exhaustion path does behave that way (third group of
conjuncts), and the delivered values are exactly the first N, but on
the cancellation exit path the code breaks the contract: under the
race resolution in which the deferred function takes `pullMutex` first,
`stop` runs once but the spawned goroutine then calls `next` after
`stop` and leaks; under the other resolution the goroutine holds
`pullMutex` while blocked forever on the unbuffered `res` channel, so
the deferred `stop` is never reached and the consumer deadlocks.  The
last conjunct is the same defect for `IterCtx2` (the model at pair
type). -/
theorem iterCtx_cancellation_breaks_release_contract :
    (iterCtxRun ([0, 1, 2, 3, 4] : List Int) 2 .mainFirst).delivered = [0, 1] ∧
    (iterCtxRun ([0, 1, 2, 3, 4] : List Int) 2 .mainFirst).stopCalls = 1 ∧
    (iterCtxRun ([0, 1, 2, 3, 4] : List Int) 2 .mainFirst).nextCallsAfterStop = 1 ∧
    (iterCtxRun ([0, 1, 2, 3, 4] : List Int) 2 .workerFirst).delivered = [0, 1] ∧
    (iterCtxRun ([0, 1, 2, 3, 4] : List Int) 2 .workerFirst).stopCalls = 0 ∧
    (iterCtxRun ([0, 1, 2, 3, 4] : List Int) 2 .workerFirst).mainReturned = false ∧
    (iterCtxRun ([7, 8] : List Int) 5 .mainFirst).delivered = [7, 8] ∧
    (iterCtxRun ([7, 8] : List Int) 5 .mainFirst).stopCalls = 1 ∧
    (iterCtxRun ([7, 8] : List Int) 5 .mainFirst).workerLeaked = false ∧
    (iterCtxRun ([(1, 10), (2, 20), (3, 30)] : List (Int × Int)) 1
        .mainFirst).nextCallsAfterStop = 1 := by
  refine ⟨rfl, rfl, rfl, rfl, rfl, rfl, rfl, rfl, rfl, rfl⟩

/-- C2: the claim says repeated start/cancel/release cycles never
deadlock, never leak the in-flight pull worker, and never leave the
guarding mutex held while the deferred release path waits on it.  The
code violates all three on the cancellation path: when the worker
goroutine wins the `pullMutex` race it blocks forever on the
unbuffered `res` channel while holding the mutex, so the consumer's
deferred `pullMutex.Lock()` waits forever (deadlock, `stop` never
runs); when the deferred function wins, the consumer finishes but the
worker goroutine still leaks, blocked forever on the channel send. -/
theorem iterCtx_cancellation_deadlock_or_leak :
    (iterCtxRun ([0, 1, 2] : List Int) 1 .workerFirst).mainReturned = false ∧
    (iterCtxRun ([0, 1, 2] : List Int) 1 .workerFirst).stopCalls = 0 ∧
    (iterCtxRun ([0, 1, 2] : List Int) 1 .workerFirst).workerLeaked = true ∧
    (iterCtxRun ([0, 1, 2] : List Int) 1 .mainFirst).mainReturned = true ∧
    (iterCtxRun ([0, 1, 2] : List Int) 1 .mainFirst).workerLeaked = true := by
  refine ⟨rfl, rfl, rfl, rfl, rfl⟩

/-- C3: for `step ≠ 0`, `Range(start, end, step)` is constructed
without failing and yields exactly the progression
`start, start+step, ...` strictly before `end` in the direction of
`step` — every yielded value is `start + i*step`, every yielded value
is strictly before `end`, the next progression value would not be —
with length `max(0, 1 + floor((end - start - sign(step)) / step))`
when the direction of `step` matches and `0` otherwise, and with the
three concrete examples from the spec. -/
theorem range_progression_spec (s e st : Int) (hst : st ≠ 0) :
    Range s e st = .ok ⟨s, e, st⟩ ∧
    rangeRun ⟨s, e, st⟩
      = (List.range (rangeRun ⟨s, e, st⟩).length).map
          (fun i : Nat => s + (i : Int) * st) ∧
    (∀ x ∈ rangeRun ⟨s, e, st⟩, (0 < st → x < e) ∧ (st < 0 → e < x)) ∧
    (0 < st → e ≤ s + ((rangeRun ⟨s, e, st⟩).length : Int) * st) ∧
    (st < 0 → s + ((rangeRun ⟨s, e, st⟩).length : Int) * st ≤ e) ∧
    ((rangeRun ⟨s, e, st⟩).length : Int)
      = (if (0 < st ∧ s < e) ∨ (st < 0 ∧ e < s) then
          max 0 (1 + (e - s - st.sign).fdiv st) else 0) ∧
    rangeRun ⟨0, 0, 1⟩ = [] ∧
    rangeRun ⟨4, -1, -1⟩ = [4, 3, 2, 1, 0] ∧
    rangeRun ⟨0, 5, 1⟩ = [0, 1, 2, 3, 4] := by
  have hrun : rangeRun ⟨s, e, st⟩ = rangeLoop s st (getRangeLen s e st).toNat := rfl
  have hlen : (rangeRun ⟨s, e, st⟩).length = (getRangeLen s e st).toNat := by
    rw [hrun, rangeLoop_length]
  refine ⟨?_, ?_, ?_, ?_, ?_, ?_, ?_, ?_, ?_⟩
  · unfold Range
    rw [if_neg hst]
  · rw [hlen, hrun, rangeLoop_eq_map]
  · intro x hx
    rw [hrun, rangeLoop_eq_map] at hx
    obtain ⟨i, hi, rfl⟩ := List.mem_map.1 hx
    rw [List.mem_range] at hi
    constructor
    · intro hpos
      exact (getRangeLen_pos_facts s e st hpos).1 i hi
    · intro hneg
      have hsym := getRangeLen_neg_symm s e st
      have hbound := (getRangeLen_pos_facts (-s) (-e) (-st) (by omega)).1 i
        (by rw [← hsym]; exact hi)
      have hmul : (i : Int) * -st = -((i : Int) * st) := by ring
      omega
  · intro hpos
    rw [hlen]
    exact (getRangeLen_pos_facts s e st hpos).2
  · intro hneg
    have hsym := getRangeLen_neg_symm s e st
    have hfact := (getRangeLen_pos_facts (-s) (-e) (-st) (by omega)).2
    rw [hlen, hsym]
    have hmul : ((getRangeLen (-s) (-e) (-st)).toNat : Int) * -st
        = -(((getRangeLen (-s) (-e) (-st)).toNat : Int) * st) := by ring
    omega
  · rw [hlen]
    exact getRangeLen_toNat_formula s e st hst
  · decide
  · decide
  · decide

/-- Witness for C3's theorem at `Range(4, -1, -1)`. -/
theorem range_progression_spec_witness :
    ((-1 : Int) ≠ 0) ∧ rangeRun ⟨4, -1, -1⟩ = [4, 3, 2, 1, 0] :=
  ⟨by decide, (range_progression_spec 4 (-1) (-1) (by decide)).2.2.2.2.2.2.2.1⟩

/-- C4 counterexample: the claim quantifies over all integers `start`
with `step > 0`, but for the negative start `-2` the code drops
nothing and yields the first elements of the sequence, not "the
elements at positions `start, start+step, ...`" (of which only
position 0 exists here): `Slice([10,20,30], -2, 1, 1)` yields
`[10, 20, 30]` while the claimed position selection is `[10]`. -/
theorem slice_negative_start_counterexample :
    sliceRunYield ([10, 20, 30] : List Int) (-2) 1 1
      ≠ sliceSpecSelection ([10, 20, 30] : List Int) (-2) 1 1 := by
  decide

/-- C4 (amended to non-negative `start`): for `0 ≤ start` and
`step > 0`, `Slice(seq, start, end, step)` yields exactly the elements
of `seq` at 0-based positions `start, start+step, ...` strictly below
`end` (stopping early if `seq` exhausts), and consumes from `seq`
exactly the elements at positions below `min(len(seq), max(start, end))`
— the `start` leading elements plus every examined element, selected
or skipped, up to the last position examined. -/
theorem slice_spec_nonneg_start {V : Type} (xs : List V) (s e st : Int)
    (hs : 0 ≤ s) (hst : 0 < st) :
    sliceRunYield xs s e st = sliceSpecSelection xs s e st ∧
    sliceRunConsumed xs s e st = min xs.length (max s.toNat e.toNat) :=
  ⟨sliceRunYield_spec xs s e st hs hst, sliceRunConsumed_spec xs s e st hs⟩

/-- Witness for C4's amended theorem at
`Slice([10,20,30,40,50], 1, 4, 2)`. -/
theorem slice_spec_nonneg_start_witness :
    ((0 : Int) ≤ 1 ∧ (0 : Int) < 2) ∧
      sliceRunYield ([10, 20, 30, 40, 50] : List Int) 1 4 2
        = sliceSpecSelection ([10, 20, 30, 40, 50] : List Int) 1 4 2 :=
  ⟨⟨by decide, by decide⟩,
    (slice_spec_nonneg_start [10, 20, 30, 40, 50] 1 4 2 (by decide) (by decide)).1⟩

/-- C5: `Range` fails with the `InvalidArgument`-kind panic exactly
when `step = 0`, and `Slice`/`Slice2` exactly when `step ≤ 0`; in the
model the check is part of the constructor (`Range`, `Slice`,
`Slice2`), which returns before any closure exists, while iteration
(`rangeRun`, `sliceRun`) is a separate total function on constructed
closures — mirroring that the Go code panics synchronously at
construction time and never during iteration. -/
theorem range_slice_invalid_argument_iff (start endv step : Int)
    (xs : List Int) (ps : List (Int × Int)) :
    isInvalidArgument (Range start endv step) = decide (step = 0) ∧
    isInvalidArgument (Slice xs start endv step) = decide (step ≤ 0) ∧
    isInvalidArgument (Slice2 ps start endv step) = decide (step ≤ 0) := by
  refine ⟨?_, ?_, ?_⟩
  · unfold Range
    split_ifs with h <;> simp [isInvalidArgument, h]
  · unfold Slice
    split_ifs with h <;> simp [isInvalidArgument, h]
  · unfold Slice2
    split_ifs with h <;> simp [isInvalidArgument, h]

/-- C6: the claim says iterating `Accumulate(seq, f, initial)` a second
time from the start yields the same values.  The code declares the
accumulator outside the returned closure, so the second iteration
resumes from the first iteration's final accumulator: over `[1,2,3]`
with addition and initial value `0` the first pass yields `[1,3,6]`
and the second `[7,9,12]`. -/
theorem accumulate_second_iteration_differs :
    (accumulateTwice [1, 2, 3] (· + ·) (0 : Int)).1 = [1, 3, 6] ∧
    (accumulateTwice [1, 2, 3] (· + ·) (0 : Int)).2 = [7, 9, 12] ∧
    (accumulateTwice [1, 2, 3] (· + ·) (0 : Int)).2
      ≠ (accumulateTwice [1, 2, 3] (· + ·) (0 : Int)).1 := by
  refine ⟨rfl, rfl, by decide⟩

/-- C7: `ZipLongest(fill, a, b)` yields exactly `max(len(a), len(b))`
rounds of one element per input sequence, in order, the element of the
exhausted sequence replaced by the fill value, and no extra all-fill
round after both sequences are exhausted. -/
theorem zipLongest_pair_rounds {V : Type} (fillValue : V) (as bs : List V) :
    ZipLongest fillValue [as, bs]
      = (List.range (max as.length bs.length)).flatMap
          (fun i => [as.getD i fillValue, bs.getD i fillValue]) := by
  unfold ZipLongest
  simp only [List.map_cons, List.map_nil]
  rw [zipLongestGo_some_some, zipLongestPairRec_eq_range]

/-- C8: `ZipPair(a, b)` yields exactly `min(len(a), len(b))` pairs,
the i-th pair being the pair of i-th elements, in order. -/
theorem zipPair_min_length_pairs {V1 V2 : Type} (as : List V1) (bs : List V2) :
    (ZipPair as bs).length = min as.length bs.length ∧
    ∀ i a b, as.get? i = some a → bs.get? i = some b →
      (ZipPair as bs).get? i = some (a, b) := by
  induction as generalizing bs with
  | nil =>
    refine ⟨by simp [ZipPair], ?_⟩
    intro i a b ha hb
    simp at ha
  | cons x xs ih =>
    match bs with
    | [] =>
      refine ⟨by simp [ZipPair], ?_⟩
      intro i a b ha hb
      simp at hb
    | y :: ys =>
      refine ⟨?_, ?_⟩
      · simp only [ZipPair, List.length_cons, (ih ys).1]
        omega
      · intro i a b ha hb
        match i with
        | 0 =>
          simp only [List.get?_cons_zero] at ha hb
          cases ha
          cases hb
          simp [ZipPair]
        | i + 1 =>
          simp only [List.get?_cons_succ] at ha hb
          simpa [ZipPair] using (ih ys).2 i a b ha hb

/-- Witness for C8's theorem at `ZipPair([1,2,3], [5,6])`. -/
theorem zipPair_min_length_pairs_witness :
    (ZipPair ([1, 2, 3] : List Int) ([5, 6] : List Int)).length = min 3 2 ∧
    (ZipPair ([1, 2, 3] : List Int) ([5, 6] : List Int)).get? 1 = some (2, 6) :=
  ⟨(zipPair_min_length_pairs [1, 2, 3] [5, 6]).1,
    (zipPair_min_length_pairs [1, 2, 3] [5, 6]).2 1 2 6 rfl rfl⟩

/-- C9 counterexample: re-slicing with the same bounds does not
reproduce the sub-sequence in general: `Slice([0..4], 2, 5, 1)` yields
`[2,3,4]`, but slicing that result again with `(2, 5, 1)` yields
`[4]`. -/
theorem slice_reslice_counterexample :
    sliceRunYield (sliceRunYield ([0, 1, 2, 3, 4] : List Int) 2 5 1) 2 5 1
      ≠ sliceRunYield ([0, 1, 2, 3, 4] : List Int) 2 5 1 := by
  decide

/-- C9 (amended): re-slicing is idempotent only for bounds that are the
identity in the sliced coordinate system, `start = 0` and `step = 1`:
for every sequence and every `end`, applying `Slice(·, 0, end, 1)`
twice yields the same sub-sequence as applying it once. -/
theorem slice_reslice_identity_idempotent {V : Type} (xs : List V) (e : Int) :
    sliceRunYield (sliceRunYield xs 0 e 1) 0 e 1 = sliceRunYield xs 0 e 1 := by
  rw [sliceRunYield_zero_one, sliceRunYield_zero_one, List.take_take, min_self]

/-- C10: `Zip` (and `Zip2`) applied to zero input sequences returns a
sequence whose iteration never yields a value and never terminates:
for every number of rounds of the run loop, nothing has been yielded
and the loop has not returned. -/
theorem zip_empty_seqs_never_terminates :
    (∀ fuel : Nat, Zip ([] : List (List Int)) fuel = ([], false)) ∧
    (∀ fuel : Nat, Zip2 ([] : List (List (Int × Int))) fuel = ([], false)) := by
  constructor
  · intro fuel
    induction fuel with
    | zero => rfl
    | succ n ih =>
      simp only [Zip] at ih
      simp [Zip, zipRunFuel, zipRound, ih]
  · intro fuel
    induction fuel with
    | zero => rfl
    | succ n ih =>
      simp only [Zip2] at ih
      simp [Zip2, zipRunFuel, zipRound, ih]

end GoItertools
